import Mathlib

/-!
# Admission control of `app/vlselect/main.go`

A verification development for the request-admission layer of the VictoriaLogs
select endpoint: the default capacity, the duration arithmetic of
`getMaxQueryDuration`, and the concurrency gate of `RequestHandler`
(a buffered channel used as a counting semaphore, raced against a pooled timer
and the request's cancellation channel).

Conventions of the embedding:

* `time.Duration` and Go `int`/`int64` are `Int`, with `wrapInt64` applied where
  the Go code multiplies (two's-complement wrap-around);
* Go strings are `List Char`;
* the handler is a small-step machine: every step performs the one effect of the
  statement at its program point, the effect is applied to the shared state and
  appended to the handler's history;
* the concurrent system is a list of handlers over one shared state, driven by a
  list of scheduler actions.
-/

namespace Vlselect

/-! ## Machine integers and durations -/

/-- Two's-complement wrap-around of a mathematical integer into `int64`. -/
def wrapInt64 (x : Int) : Int :=
  (x + 2 ^ 63) % 2 ^ 64 - 2 ^ 63

/-- The value is representable as an `int64`. -/
def isInt64 (x : Int) : Prop :=
  -(2 ^ 63) ≤ x ∧ x < 2 ^ 63

instance (x : Int) : Decidable (isInt64 x) := by
  unfold isInt64; infer_instance

/-- The constant `time.Millisecond`, in nanoseconds. -/
def Millisecond : Int := 1000000

/-- The constant `time.Second`, in nanoseconds. -/
def Second : Int := 1000000000

/-- The command-line flags of the package (lines 19-26); durations in nanoseconds. -/
structure Flags where
  maxConcurrentRequests : Int
  maxQueueDuration : Int
  maxQueryDuration : Int
  deriving DecidableEq, Repr

/-! ## Default capacity (lines 28-40) -/

/-- The function `getDefaultMaxConcurrentRequests`, with the result of `cgroup.AvailableCPUs()`
(not part of the sources) taken as the argument `availableCPUs`. -/
def getDefaultMaxConcurrentRequests (availableCPUs : Int) : Int :=
  let n := availableCPUs
  let n := if n ≤ 4 then wrapInt64 (n * 2) else n
  let n := if n > 16 then 16 else n
  n

/-! ## Requests and the `timeout` argument -/

/-- The `timeout` query argument of a request as `httputils.GetDuration` sees it. -/
inductive TimeoutArg where
  /-- the argument is missing -/
  | absent
  /-- the argument is present and cannot be parsed -/
  | unparsable
  /-- the argument parses to `dms` milliseconds (an `int64`) -/
  | parsed (dms : Int)
  deriving DecidableEq, Repr

/-- An inbound request: its URL path and its `timeout` argument. -/
structure Request where
  path : List Char
  timeout : TimeoutArg
  deriving DecidableEq, Repr

/-- Modelled from the spec: `httputils.GetDuration(r, argKey, defaultValue)` is not
part of the sources. Per the spec the raw client value is a number of milliseconds
that is optional (absent means the default) or invalid (an error is returned). The
result is the pair of the milliseconds and the error flag. -/
def GetDuration (arg : TimeoutArg) (defaultValue : Int) : Int × Bool :=
  match arg with
  | .absent => (defaultValue, false)
  | .unparsable => (0, true)
  | .parsed dms => (dms, false)

/-- Modelled from the spec: `httputils.GetDuration` is not part of the sources. A client
value it does not accept is invalid and yields an error; the values it returns
without an error are `defaultValue` and the numbers of milliseconds from `1` up to
this bound, 100 years (the constant `maxDurationMsecs` of `lib/httputils`). -/
def maxDurationMsecs : Int := 100 * 365 * 24 * 3600 * 1000

/-- The function `getMaxQueryDuration` (lines 126-136). -/
def getMaxQueryDuration (cfg : Flags) (r : Request) : Int :=
  let (dms, err) := GetDuration r.timeout 0
  let dms := if err then 0 else dms
  let d := wrapInt64 (dms * Millisecond)
  if d ≤ 0 ∨ d > cfg.maxQueryDuration then cfg.maxQueryDuration else d

/-- The queue deadline computed on the slow path (lines 83-86). -/
def queueDeadline (cfg : Flags) (r : Request) : Int :=
  let d := getMaxQueryDuration cfg r
  if d > cfg.maxQueueDuration then cfg.maxQueueDuration else d

/-! ## Go library functions used by the handler -/

/-- Go's `strings.HasPrefix`. -/
def hasPrefix (s p : List Char) : Bool :=
  p.isPrefixOf s

/-- Go's `strings.TrimPrefix`. -/
def trimPrefix (s p : List Char) : List Char :=
  if p.isPrefixOf s then s.drop p.length else s

/-- The call `strings.ReplaceAll(s, "//", "/")`: non-overlapping occurrences, left to right. -/
def replaceAllDoubleSlash : List Char → List Char
  | '/' :: '/' :: rest => '/' :: replaceAllDoubleSlash rest
  | c :: rest => c :: replaceAllDoubleSlash rest
  | [] => []

/-- The string `"/select/"` tested at line 68. -/
def selectPrefix : List Char := "/select/".toList

/-- The string `"/logsql/query"` matched at line 115. -/
def logsqlQueryPath : List Char := "/logsql/query".toList

/-- The local variable `path` after lines 71-72. -/
def routePath (r : Request) : List Char :=
  replaceAllDoubleSlash (trimPrefix r.path "/select".toList)

/-- Decimal digits of a natural number (`fmtInt` of package `time`, `%d` of `fmt`). -/
def fmtNat (n : Nat) : List Char :=
  Nat.toDigits 10 n

/-- The verb `%d` applied to an integer. -/
def fmtInt (i : Int) : List Char :=
  if i < 0 then '-' :: fmtNat i.natAbs else fmtNat i.natAbs

/-- The loop of `fmtFrac` in package `time`: `i` digits remain to be consumed. -/
def fmtFracLoop : Nat → Nat → Bool → List Char → List Char × Bool × Nat
  | 0, v, print, out => (out, print, v)
  | i + 1, v, print, out =>
    let digit := v % 10
    let print := print || digit != 0
    let out := if print then Nat.digitChar digit :: out else out
    fmtFracLoop i (v / 10) print out

/-- The function `fmtFrac` of package `time`: the fraction of `v / 10^prec` without trailing zeros
(and without the point when it is zero), and the value `v / 10^prec`. -/
def fmtFrac (v prec : Nat) : List Char × Nat :=
  let (out, print, v) := fmtFracLoop prec v false []
  (if print then '.' :: out else out, v)

/-- Go's `time.Duration.String`, which renders the `%s` argument `maxQueueDuration`. -/
def durationString (d : Int) : List Char :=
  let u := d.natAbs
  let body :=
    if u < 1000000000 then
      if u = 0 then "0s".toList
      else if u < 1000 then fmtNat u ++ "ns".toList
      else if u < 1000000 then
        let (f, v) := fmtFrac u 3
        fmtNat v ++ f ++ "µs".toList
      else
        let (f, v) := fmtFrac u 6
        fmtNat v ++ f ++ "ms".toList
    else
      let (f, u) := fmtFrac u 9
      let secs := fmtNat (u % 60) ++ f ++ "s".toList
      let u := u / 60
      if u > 0 then
        let mins := fmtNat (u % 60) ++ "m".toList
        let u := u / 60
        if u > 0 then fmtNat u ++ "h".toList ++ mins ++ secs else mins ++ secs
      else secs
  if d < 0 then '-' :: body else body

/-! ### `float64` arithmetic for `Duration.Seconds` and the verb `%.3f`

A finite `float64` is kept as sign, integer significand and binary exponent; every
operation computes the exact rational result and rounds it to 53 bits, ties to
even. The exponent range is not modelled: the values that occur here lie between
`1e-9` and `1e10` in magnitude, far from overflow and from the subnormals. -/

/-- A finite binary floating-point number `(-1)^neg * mant * 2^exp`. -/
structure F64 where
  neg : Bool
  mant : Nat
  exp : Int
  deriving DecidableEq, Repr

/-- Number of binary digits of `n`, by recursion on `fuel`. -/
def bitLenAux : Nat → Nat → Nat
  | 0, _ => 0
  | fuel + 1, n => if n = 0 then 0 else bitLenAux fuel (n / 2) + 1

/-- Number of binary digits of `n` (`0` for `0`). -/
def bitLen (n : Nat) : Nat :=
  bitLenAux n n

/-- The integer nearest to `num / den`, ties to the even one. -/
def roundHalfEven (num den : Nat) : Nat :=
  let q := num / den
  let r := num % den
  if 2 * r < den then q
  else if 2 * r > den then q + 1
  else if q % 2 = 0 then q else q + 1

/-- The integer nearest to `num / den * 2^(-e)`, ties to even. -/
def roundScaled (num den : Nat) (e : Int) : Nat :=
  if e < 0 then roundHalfEven (num * 2 ^ e.natAbs) den
  else roundHalfEven num (den * 2 ^ e.natAbs)

/-- Round the positive rational `num / den` to a 53-bit significand and exponent. -/
def roundToF64 (neg : Bool) (num den : Nat) : F64 :=
  if num = 0 ∨ den = 0 then ⟨false, 0, 0⟩
  else
    let k : Int := (bitLen num : Int) - (bitLen den : Int)
    let e0 : Int := k - 53
    -- `num / den / 2^e0` lies strictly between `2^52` and `2^54`
    let e : Int := if num * 2 ^ (-e0).toNat < den * 2 ^ e0.toNat * 2 ^ 53 then e0 else e0 + 1
    let m := roundScaled num den e
    if m = 2 ^ 53 then ⟨neg, 2 ^ 52, e + 1⟩ else ⟨neg, m, e⟩

/-- The conversion `float64(i)` of an integer. -/
def F64.ofInt (i : Int) : F64 :=
  roundToF64 (decide (i < 0)) i.natAbs 1

/-- Correctly rounded division of `float64`. -/
def F64.div (a b : F64) : F64 :=
  let e := a.exp - b.exp
  roundToF64 (a.neg != b.neg) (a.mant * 2 ^ e.toNat) (b.mant * 2 ^ (-e).toNat)

/-- Correctly rounded addition of `float64`. -/
def F64.add (a b : F64) : F64 :=
  let e := min a.exp b.exp
  let x : Int := (if a.neg then -1 else 1) * (a.mant * 2 ^ (a.exp - e).toNat : Nat)
  let y : Int := (if b.neg then -1 else 1) * (b.mant * 2 ^ (b.exp - e).toNat : Nat)
  let s := x + y
  roundToF64 (decide (s < 0)) (s.natAbs * 2 ^ e.toNat) (2 ^ (-e).toNat)

/-- Go's `time.Duration.Seconds`: `float64(d / Second) + float64(d % Second) / 1e9`. -/
def Seconds (d : Int) : F64 :=
  let sec := Int.tdiv d Second
  let nsec := Int.tmod d Second
  F64.add (F64.ofInt sec) (F64.div (F64.ofInt nsec) (F64.ofInt 1000000000))

/-- Three decimal digits of `n < 1000`. -/
def pad3 (n : Nat) : List Char :=
  [Nat.digitChar (n / 100), Nat.digitChar (n / 10 % 10), Nat.digitChar (n % 10)]

/-- The verb `%.3f`: the exact binary value rounded to three decimals, ties to even. -/
def fmtFixed3 (x : F64) : List Char :=
  let n := roundScaled (x.mant * 1000) 1 (-x.exp)
  let body := fmtNat (n / 1000) ++ '.' :: pad3 (n % 1000)
  if x.neg then '-' :: body else body

/-- The type `httpserver.ErrorWithStatusCode`. -/
structure ErrorWithStatusCode where
  err : List Char
  statusCode : Nat
  deriving DecidableEq, Repr

/-- The constant `http.StatusServiceUnavailable`. -/
def StatusServiceUnavailable : Nat := 503

/-- The remediation hints that end the message of lines 103-106; the argument of
`%s` is the flag `maxQueueDuration`, printed by its `String` method. -/
def possibleSolutions (cfg : Flags) : List Char :=
  ("to reduce query load; to add more compute resources to the server; " ++
   "to increase -search.maxQueueDuration=").toList ++
  durationString cfg.maxQueueDuration ++
  "; to increase -search.maxQueryDuration; to increase -search.maxConcurrentRequests".toList

/-- The error built at lines 102-108 for the queue deadline `d`. -/
def timeoutError (cfg : Flags) (d : Int) : ErrorWithStatusCode where
  err :=
    "couldn't start executing the request in ".toList ++ fmtFixed3 (Seconds d) ++
    " seconds, since -search.maxConcurrentRequests=".toList ++
    fmtInt cfg.maxConcurrentRequests ++
    " concurrent requests are executed. Possible solutions: ".toList ++
    possibleSolutions cfg
  statusCode := StatusServiceUnavailable

/-! ## Shared state, effects and the handler machine -/

/-- The package-level state shared by all handlers: the channel `concurrencyLimitCh`
(its capacity and its length), the three counters, and the traffic of the timer pool. -/
structure Shared where
  /-- the value `cap(concurrencyLimitCh)` -/
  capacity : Nat
  /-- the value `len(concurrencyLimitCh)` -/
  slotsHeld : Nat
  /-- the counter `concurrencyLimitReached` -/
  concurrencyLimitReached : Nat
  /-- the counter `concurrencyLimitTimeout` -/
  concurrencyLimitTimeout : Nat
  /-- the counter `logsqlQueryRequests` -/
  logsqlQueryRequests : Nat
  /-- number of `timerpool.Get` calls so far -/
  timerGets : Nat
  /-- number of `timerpool.Put` calls so far -/
  timerPuts : Nat
  deriving DecidableEq, Repr

/-- The function `Init` (lines 43-45): `make(chan struct{}, n)` panics for a negative `n`, which
is the result `none`; otherwise the channel is empty with capacity `n`. The counters
start at zero with the process. -/
def Init (cfg : Flags) : Option Shared :=
  if cfg.maxConcurrentRequests < 0 then none
  else some
    { capacity := cfg.maxConcurrentRequests.toNat, slotsHeld := 0, concurrencyLimitReached := 0,
      concurrencyLimitTimeout := 0, logsqlQueryRequests := 0, timerGets := 0, timerPuts := 0 }

/-- The observable actions of `RequestHandler`, one per statement with an effect. -/
inductive Effect where
  /-- the send `concurrencyLimitCh <- struct{}{}` (lines 78 and 89) -/
  | chanSend
  /-- the deferred receive `<-concurrencyLimitCh` (lines 79 and 91) -/
  | chanRecv
  /-- the call `concurrencyLimitReached.Inc()` -/
  | limitReachedInc
  /-- the call `concurrencyLimitTimeout.Inc()` -/
  | limitTimeoutInc
  /-- the call `timerpool.Get(d)` -/
  | timerGet (d : Int)
  /-- the call `timerpool.Put(t)` -/
  | timerPut
  /-- the receive `<-stopCh` winning the select of line 88 -/
  | stopRecv
  /-- the receive `<-t.C` winning the select of line 88 -/
  | timerRecv
  /-- the call `logger.Infof` of line 96 -/
  | infof
  /-- the call `httpserver.Errorf(w, r, "%s", err)` of line 109 -/
  | errorf (err : ErrorWithStatusCode)
  /-- the call `logsqlQueryRequests.Inc()` -/
  | queryRequestsInc
  /-- the call `httpserver.EnableCORS` -/
  | enableCORS
  /-- the call `logsql.ProcessQueryRequest`, the external query executor -/
  | processQueryRequest
  deriving DecidableEq, Repr

/-- What an effect does to the shared state. -/
def applyEffect (sh : Shared) : Effect → Shared
  | .chanSend => { sh with slotsHeld := sh.slotsHeld + 1 }
  | .chanRecv => { sh with slotsHeld := sh.slotsHeld - 1 }
  | .limitReachedInc => { sh with concurrencyLimitReached := sh.concurrencyLimitReached + 1 }
  | .limitTimeoutInc => { sh with concurrencyLimitTimeout := sh.concurrencyLimitTimeout + 1 }
  | .timerGet _ => { sh with timerGets := sh.timerGets + 1 }
  | .timerPut => { sh with timerPuts := sh.timerPuts + 1 }
  | .queryRequestsInc => { sh with logsqlQueryRequests := sh.logsqlQueryRequests + 1 }
  | _ => sh

/-- Program points of `RequestHandler`; each names the statement executed next. -/
inductive PC where
  /-- line 67: prefix test, path rewriting and the non-blocking select of line 77 -/
  | entry
  /-- line 82 -/
  | limitReached
  /-- lines 83-87 -/
  | timerGet
  /-- line 88: the blocking select, the timer armed with `d` -/
  | wait (d : Int)
  /-- line 90 -/
  | slotAcquired
  /-- line 93 -/
  | cancelled
  /-- lines 94-98 -/
  | cancelledLog
  /-- line 100 -/
  | timedOut (d : Int)
  /-- line 101 -/
  | timedOutInc (d : Int)
  /-- lines 102-110 -/
  | timedOutErr (d : Int)
  /-- line 114: the switch, a slot held and its release deferred -/
  | dispatch
  /-- line 117 -/
  | enableCORS
  /-- line 118 -/
  | process
  /-- the function returns `ret` and runs the deferred receive -/
  | deferred (ret : Bool)
  /-- the function has returned `ret` -/
  | returned (ret : Bool)
  deriving DecidableEq, Repr

/-- The case of the select of line 88 that the runtime picks. -/
inductive Arm where
  /-- the case `concurrencyLimitCh <- struct{}{}` -/
  | slot
  /-- the case `<-stopCh` -/
  | stop
  /-- the case `<-t.C` -/
  | timer
  deriving DecidableEq, Repr

/-- The function `RequestHandler` (lines 66-123), one statement at a time: a step of
the handler for request `r` at program point `pc`, against the shared
state `sh`: the effects performed and the next program point, or `none` when the
statement cannot proceed (a full channel, an empty channel, a returned function).
The client's cancellation and the expiry of the timer are events of the
environment, so the cases `stop` and `timer` can be picked at any time. -/
def RequestHandler (cfg : Flags) (sh : Shared) (r : Request) (pc : PC) (arm : Arm) :
    Option (List Effect × PC) :=
  match pc with
  | .entry =>
    if !hasPrefix r.path selectPrefix then some ([], .returned false)
    else if sh.slotsHeld < sh.capacity then some ([.chanSend], .dispatch)
    else some ([], .limitReached)
  | .limitReached => some ([.limitReachedInc], .timerGet)
  | .timerGet =>
    let d := queueDeadline cfg r
    some ([.timerGet d], .wait d)
  | .wait d =>
    match arm with
    | .slot => if sh.slotsHeld < sh.capacity then some ([.chanSend], .slotAcquired) else none
    | .stop => some ([.stopRecv], .cancelled)
    | .timer => some ([.timerRecv], .timedOut d)
  | .slotAcquired => some ([.timerPut], .dispatch)
  | .cancelled => some ([.timerPut], .cancelledLog)
  | .cancelledLog => some ([.infof], .returned true)
  | .timedOut d => some ([.timerPut], .timedOutInc d)
  | .timedOutInc d => some ([.limitTimeoutInc], .timedOutErr d)
  | .timedOutErr d => some ([.errorf (timeoutError cfg d)], .returned true)
  | .dispatch =>
    if routePath r = logsqlQueryPath then some ([.queryRequestsInc], .enableCORS)
    else some ([], .deferred false)
  | .enableCORS => some ([.enableCORS], .process)
  | .process => some ([.processQueryRequest], .deferred true)
  | .deferred ret => if 0 < sh.slotsHeld then some ([.chanRecv], .returned ret) else none
  | .returned _ => none

/-- One invocation of `RequestHandler`: its request, its program point and the
effects it has performed so far, oldest first. -/
structure Handler where
  req : Request
  pc : PC
  trace : List Effect
  deriving DecidableEq, Repr

/-- A handler that has just been called with `r`. -/
def Handler.fresh (r : Request) : Handler :=
  { req := r, pc := .entry, trace := [] }

/-- One step of a handler: the effects are applied to the shared state and recorded. -/
def Handler.step (cfg : Flags) (sh : Shared) (h : Handler) (arm : Arm) :
    Option (Shared × Handler) :=
  match RequestHandler cfg sh h.req h.pc arm with
  | none => none
  | some (es, pc) => some (es.foldl applyEffect sh, { h with pc := pc, trace := h.trace ++ es })

/-- A handler run with nobody else touching the shared state: one step per arm. -/
def Handler.runAlone (cfg : Flags) (sh : Shared) (h : Handler) :
    List Arm → Option (Shared × Handler)
  | [] => some (sh, h)
  | arm :: arms =>
    match h.step cfg sh arm with
    | none => none
    | some (sh1, h1) => Handler.runAlone cfg sh1 h1 arms

/-- The handler holds a slot: it has sent to the channel and not yet received. -/
def PC.holding : PC → Bool
  | .slotAcquired | .dispatch | .enableCORS | .process | .deferred _ => true
  | _ => false

/-- The concurrent system: the shared state and every handler called so far. -/
structure Sys where
  sh : Shared
  hs : List Handler
  deriving DecidableEq, Repr

/-- Scheduler actions: a new request arrives, or the handler `i` takes a step. -/
inductive Action where
  | arrive (r : Request)
  | step (i : Nat) (arm : Arm)
  deriving DecidableEq, Repr

/-- One action of the system, `none` when the action is not enabled. -/
def Sys.step (cfg : Flags) (s : Sys) : Action → Option Sys
  | .arrive r => some { s with hs := s.hs ++ [Handler.fresh r] }
  | .step i arm =>
    match s.hs[i]? with
    | none => none
    | some h =>
      match h.step cfg s.sh arm with
      | none => none
      | some (sh1, h1) => some { sh := sh1, hs := s.hs.set i h1 }

/-- Run a schedule from a state. -/
def Sys.run (cfg : Flags) (s : Sys) : List Action → Option Sys
  | [] => some s
  | a :: as =>
    match s.step cfg a with
    | none => none
    | some s1 => Sys.run cfg s1 as

/-- The states reachable from `Init` by some schedule. -/
def Reachable (cfg : Flags) (s : Sys) : Prop :=
  ∃ sh0 acts, Init cfg = some sh0 ∧ Sys.run cfg { sh := sh0, hs := [] } acts = some s

/-- Number of slots a handler at this program point holds: one or none. -/
def PC.held (pc : PC) : Nat :=
  if pc.holding then 1 else 0

/-- Number of handlers that hold a slot. -/
def holders : List Handler → Nat
  | [] => 0
  | h :: hs => h.pc.held + holders hs

/-- Number of occurrences of an effect in a history. -/
def occurrences (e : Effect) (t : List Effect) : Nat :=
  t.count e

/-- The effect is a call of `timerpool.Get`. -/
def Effect.isTimerGet : Effect → Bool
  | .timerGet _ => true
  | _ => false

/-- Number of timers leased in a history. -/
def leases (t : List Effect) : Nat :=
  t.countP Effect.isTimerGet

/-- An execution of one handler inside a concurrent system: before each of its steps
the other handlers may have left the shared state in any condition, so every step
comes with the shared state it meets and the select case the runtime picks. -/
def Handler.exec (cfg : Flags) (h : Handler) : List (Shared × Arm) → Option Handler
  | [] => some h
  | (sh, arm) :: rest =>
    match h.step cfg sh arm with
    | none => none
    | some (_, h1) => Handler.exec cfg h1 rest

/-- The first two effects of the slow path (lines 82 and 87). -/
def slowHead (cfg : Flags) (r : Request) : List Effect :=
  [.limitReachedInc, .timerGet (queueDeadline cfg r)]

/-- The two histories with which a handler reaches the switch of line 114: a claim
on the fast path, or a claim won in the select of line 88. -/
def admittedHistories (cfg : Flags) (r : Request) : List (List Effect) :=
  [[.chanSend], slowHead cfg r ++ [.chanSend, .timerPut]]

/-- The histories a handler for `r` can have at each program point. -/
def histories (cfg : Flags) (r : Request) : PC → List (List Effect)
  | .entry => [[]]
  | .limitReached => [[]]
  | .timerGet => [[.limitReachedInc]]
  | .wait d => if d = queueDeadline cfg r then [slowHead cfg r] else []
  | .slotAcquired => [slowHead cfg r ++ [.chanSend]]
  | .cancelled => [slowHead cfg r ++ [.stopRecv]]
  | .cancelledLog => [slowHead cfg r ++ [.stopRecv, .timerPut]]
  | .timedOut d =>
    if d = queueDeadline cfg r then [slowHead cfg r ++ [.timerRecv]] else []
  | .timedOutInc d =>
    if d = queueDeadline cfg r then [slowHead cfg r ++ [.timerRecv, .timerPut]] else []
  | .timedOutErr d =>
    if d = queueDeadline cfg r then
      [slowHead cfg r ++ [.timerRecv, .timerPut, .limitTimeoutInc]]
    else []
  | .dispatch => admittedHistories cfg r
  | .enableCORS =>
    if routePath r = logsqlQueryPath then
      (admittedHistories cfg r).map (fun t => t ++ [.queryRequestsInc])
    else []
  | .process =>
    if routePath r = logsqlQueryPath then
      (admittedHistories cfg r).map (fun t => t ++ [.queryRequestsInc, .enableCORS])
    else []
  | .deferred true =>
    if routePath r = logsqlQueryPath then
      (admittedHistories cfg r).map
        (fun t => t ++ [.queryRequestsInc, .enableCORS, .processQueryRequest])
    else []
  | .deferred false =>
    if routePath r = logsqlQueryPath then [] else admittedHistories cfg r
  | .returned true =>
    [slowHead cfg r ++ [.stopRecv, .timerPut, .infof],
     slowHead cfg r ++ [.timerRecv, .timerPut, .limitTimeoutInc,
       .errorf (timeoutError cfg (queueDeadline cfg r))]] ++
    (if routePath r = logsqlQueryPath then
      (admittedHistories cfg r).map
        (fun t => t ++ [.queryRequestsInc, .enableCORS, .processQueryRequest, .chanRecv])
    else [])
  | .returned false =>
    (if hasPrefix r.path selectPrefix then [] else [[]]) ++
    (if routePath r = logsqlQueryPath then []
     else (admittedHistories cfg r).map (fun t => t ++ [.chanRecv]))

/-- The history of a handler is one of those its program point allows. -/
def Handler.Consistent (cfg : Flags) (h : Handler) : Prop :=
  h.trace ∈ histories cfg h.req h.pc

/-- Default flags of the package with `n` compute units: queue 10s, query 30s. -/
def defaultFlags (n : Int) : Flags :=
  { maxConcurrentRequests := getDefaultMaxConcurrentRequests n,
    maxQueueDuration := 10 * Second, maxQueryDuration := 30 * Second }

/-! ## Scenarios of the specification, used to exercise the theorems -/

/-- A query request with the given `timeout` argument. -/
def queryRequest (t : TimeoutArg) : Request :=
  { path := "/select/logsql/query".toList, timeout := t }

/-- Flags with capacity `n`, queue 10s and query 30s. -/
def flagsWith (n : Int) : Flags :=
  { maxConcurrentRequests := n, maxQueueDuration := 10 * Second,
    maxQueryDuration := 30 * Second }

/-- A shared state of capacity `c` with `k` slots held; the counters and the timer
traffic are given in the order of the fields. -/
def gate (c k reached timeouts queries gets puts : Nat) : Shared :=
  { capacity := c, slotsHeld := k, concurrencyLimitReached := reached, concurrencyLimitTimeout := timeouts,
    logsqlQueryRequests := queries, timerGets := gets, timerPuts := puts }

/-- Scenario A: capacity 2 and three workers; the third queues, the first finishes
and releases, the third claims the freed slot. -/
def scenarioA : List Action :=
  [.arrive (queryRequest .absent), .arrive (queryRequest .absent),
   .arrive (queryRequest .absent),
   .step 0 .timer, .step 1 .timer,
   .step 2 .timer, .step 2 .timer, .step 2 .timer,
   .step 0 .timer, .step 0 .timer, .step 0 .timer, .step 0 .timer,
   .step 2 .slot, .step 2 .timer]

/-- The state at the end of Scenario A. -/
def scenarioAFinal : Sys :=
  { sh := gate 2 2 1 0 1 1 1,
    hs :=
      [{ req := queryRequest .absent, pc := .returned true,
         trace := [.chanSend, .queryRequestsInc, .enableCORS, .processQueryRequest, .chanRecv] },
       { req := queryRequest .absent, pc := .dispatch, trace := [.chanSend] },
       { req := queryRequest .absent, pc := .dispatch,
         trace := [.limitReachedInc, .timerGet (10 * Second), .chanSend, .timerPut] }] }

/-- An admitted worker on the fast path: the shared states its five steps meet. -/
def fastSteps : List (Shared × Arm) :=
  [(gate 1 0 0 0 0 0 0, .timer), (gate 1 1 0 0 0 0 0, .timer), (gate 1 1 0 0 1 0 0, .timer),
   (gate 1 1 0 0 1 0 0, .timer), (gate 1 1 0 0 1 0 0, .timer)]

/-- The worker after `fastSteps`. -/
def fastHandler : Handler :=
  { req := queryRequest .absent, pc := .returned true,
    trace := [.chanSend, .queryRequestsInc, .enableCORS, .processQueryRequest, .chanRecv] }

/-- Scenario B: capacity 1, the slot held by another worker, `timeout=5000`; the
wait of worker B ends by the timer. -/
def scenarioBSteps : List (Shared × Arm) :=
  [(gate 1 1 0 0 0 0 0, .timer), (gate 1 1 0 0 0 0 0, .timer), (gate 1 1 1 0 0 0 0, .timer),
   (gate 1 1 1 0 0 1 0, .timer), (gate 1 1 1 0 0 1 0, .timer), (gate 1 1 1 0 0 1 1, .timer),
   (gate 1 1 1 1 0 1 1, .timer)]

/-- Worker B at the end of Scenario B. -/
def scenarioBHandler : Handler :=
  { req := queryRequest (.parsed 5000), pc := .returned true,
    trace := [.limitReachedInc, .timerGet (5 * Second), .timerRecv, .timerPut,
      .limitTimeoutInc, .errorf (timeoutError (flagsWith 1) (5 * Second))] }

/-- Scenario C: capacity 1, the slot held by another worker; the client of worker B
goes away while B waits. -/
def scenarioCSteps : List (Shared × Arm) :=
  [(gate 1 1 0 0 0 0 0, .timer), (gate 1 1 0 0 0 0 0, .timer), (gate 1 1 1 0 0 0 0, .timer),
   (gate 1 1 1 0 0 1 0, .stop)]

/-- Worker B of Scenario C right after its select has picked the cancellation. -/
def scenarioCHandler : Handler :=
  { req := queryRequest .absent, pc := .cancelled,
    trace := [.limitReachedInc, .timerGet (10 * Second), .stopRecv] }

/-- Scenario D: the timeout is absent; the worker waits with the timer armed. -/
def scenarioDHandler : Handler :=
  { req := queryRequest .absent, pc := .wait (10 * Second),
    trace := [.limitReachedInc, .timerGet (10 * Second)] }

/-! ## Basic lemmas -/

theorem wrapInt64_of_isInt64 {x : Int} (h : isInt64 x) : wrapInt64 x = x := by
  unfold isInt64 at h
  unfold wrapInt64
  norm_num at h ⊢
  omega

theorem step_eq_some {cfg : Flags} {sh sh1 : Shared} {h h1 : Handler} {arm : Arm}
    (hs : h.step cfg sh arm = some (sh1, h1)) :
    ∃ es pc, RequestHandler cfg sh h.req h.pc arm = some (es, pc) ∧
      sh1 = es.foldl applyEffect sh ∧ h1 = { h with pc := pc, trace := h.trace ++ es } := by
  unfold Handler.step at hs
  split at hs
  · simp at hs
  · rename_i es pc hn
    simp only [Option.some.injEq, Prod.mk.injEq] at hs
    exact ⟨es, pc, hn, hs.1.symm, hs.2.symm⟩

theorem step_consistent {cfg : Flags} {sh sh1 : Shared} {h h1 : Handler} {arm : Arm}
    (hc : h.Consistent cfg) (hs : h.step cfg sh arm = some (sh1, h1)) :
    h1.Consistent cfg ∧ h1.req = h.req := by
  obtain ⟨es, pc1, hn, -, rfl⟩ := step_eq_some hs
  clear hs
  obtain ⟨r, pc, t⟩ := h
  refine ⟨?_, rfl⟩
  unfold Handler.Consistent at hc ⊢
  simp only at hc hn ⊢
  cases pc
  case deferred b =>
    cases b <;> simp only [RequestHandler] at hn <;> split at hn <;> simp at hn <;>
      obtain ⟨rfl, rfl⟩ := hn <;>
      simp only [histories, admittedHistories, slowHead] at hc ⊢ <;>
      split at hc <;> simp_all <;> rcases hc with rfl | rfl <;> simp
  case wait d =>
    cases arm <;> simp only [RequestHandler] at hn <;> (try split at hn) <;> simp at hn <;>
      obtain ⟨rfl, rfl⟩ := hn <;>
      simp only [histories, admittedHistories, slowHead] at hc ⊢ <;>
      split at hc <;> simp_all
  case entry =>
    simp only [RequestHandler] at hn
    split at hn
    · simp at hn
      obtain ⟨rfl, rfl⟩ := hn
      simp_all [histories]
    · split at hn <;> simp at hn <;> obtain ⟨rfl, rfl⟩ := hn <;>
        simp_all [histories, admittedHistories]
  case dispatch =>
    simp only [RequestHandler] at hn
    split at hn <;> simp at hn <;> obtain ⟨rfl, rfl⟩ := hn <;>
      simp_all [histories, admittedHistories, slowHead] <;>
      (rcases hc with rfl | rfl <;> simp)
  case returned b => simp [RequestHandler] at hn
  all_goals
    simp [RequestHandler] at hn
    obtain ⟨rfl, rfl⟩ := hn
    simp only [histories, admittedHistories, slowHead] at hc ⊢
    try split at hc
    all_goals simp_all
    try (rcases hc with rfl | rfl <;> simp)

theorem fresh_consistent (cfg : Flags) (r : Request) : (Handler.fresh r).Consistent cfg := by
  simp [Handler.Consistent, Handler.fresh, histories]

theorem exec_consistent {cfg : Flags} (steps : List (Shared × Arm)) :
    ∀ {h h1 : Handler}, h.Consistent cfg → h.exec cfg steps = some h1 →
      h1.Consistent cfg ∧ h1.req = h.req := by
  induction steps with
  | nil =>
    intro h h1 hc he
    simp only [Handler.exec, Option.some.injEq] at he
    subst he
    exact ⟨hc, rfl⟩
  | cons p rest ih =>
    intro h h1 hc he
    obtain ⟨sh, arm⟩ := p
    simp only [Handler.exec] at he
    split at he
    · simp at he
    · rename_i sh2 h2 hs
      obtain ⟨hc2, hr2⟩ := step_consistent hc hs
      obtain ⟨hc1, hr1⟩ := ih hc2 he
      exact ⟨hc1, hr1.trans hr2⟩

theorem exec_fresh_consistent {cfg : Flags} {r : Request} {steps : List (Shared × Arm)}
    {h : Handler} (he : (Handler.fresh r).exec cfg steps = some h) :
    h.trace ∈ histories cfg r h.pc := by
  obtain ⟨hc, hr⟩ := exec_consistent steps (fresh_consistent cfg r) he
  have hr2 : h.req = r := hr
  rw [← hr2]
  exact hc

/-- Case analysis on the histories of a handler: a property of program point and
history holds for a consistent handler as soon as it holds on each control path. -/
theorem histories_elim {cfg : Flags} {r : Request} {P : PC → List Effect → Prop}
    {pc : PC} {t : List Effect} (hc : t ∈ histories cfg r pc)
    (entry : P .entry [])
    (limitReached : P .limitReached [])
    (timerGet : P .timerGet [.limitReachedInc])
    (wait : P (.wait (queueDeadline cfg r)) (slowHead cfg r))
    (slotAcquired : P .slotAcquired (slowHead cfg r ++ [.chanSend]))
    (cancelled : P .cancelled (slowHead cfg r ++ [.stopRecv]))
    (cancelledLog : P .cancelledLog (slowHead cfg r ++ [.stopRecv, .timerPut]))
    (timedOut : P (.timedOut (queueDeadline cfg r)) (slowHead cfg r ++ [.timerRecv]))
    (timedOutInc :
      P (.timedOutInc (queueDeadline cfg r)) (slowHead cfg r ++ [.timerRecv, .timerPut]))
    (timedOutErr :
      P (.timedOutErr (queueDeadline cfg r))
        (slowHead cfg r ++ [.timerRecv, .timerPut, .limitTimeoutInc]))
    (retCancelled : P (.returned true) (slowHead cfg r ++ [.stopRecv, .timerPut, .infof]))
    (retTimedOut :
      P (.returned true)
        (slowHead cfg r ++ [.timerRecv, .timerPut, .limitTimeoutInc,
          .errorf (timeoutError cfg (queueDeadline cfg r))]))
    (retNoPrefix : hasPrefix r.path selectPrefix = false → P (.returned false) [])
    (admitted : ∀ a ∈ admittedHistories cfg r,
      P .dispatch a ∧
      (routePath r = logsqlQueryPath →
        P .enableCORS (a ++ [.queryRequestsInc]) ∧
        P .process (a ++ [.queryRequestsInc, .enableCORS]) ∧
        P (.deferred true) (a ++ [.queryRequestsInc, .enableCORS, .processQueryRequest]) ∧
        P (.returned true)
          (a ++ [.queryRequestsInc, .enableCORS, .processQueryRequest, .chanRecv])) ∧
      (routePath r ≠ logsqlQueryPath →
        P (.deferred false) a ∧ P (.returned false) (a ++ [.chanRecv]))) :
    P pc t := by
  rcases pc with _ | _ | _ | d | _ | _ | _ | d | d | d | _ | _ | _ | b | b
  case deferred =>
    cases b <;> simp only [histories] at hc <;> split at hc
    · simp at hc
    · exact ((admitted t hc).2.2 ‹_›).1
    · simp only [List.mem_map] at hc
      obtain ⟨a, ha, rfl⟩ := hc
      exact ((admitted a ha).2.1 ‹_›).2.2.1
    · simp at hc
  case returned =>
    cases b <;> simp only [histories] at hc
    · simp only [List.mem_append] at hc
      rcases hc with hc | hc
      · split at hc <;> simp at hc
        subst hc
        rename_i hp
        exact retNoPrefix (by simpa using hp)
      · split at hc <;> simp at hc
        obtain ⟨a, ha, rfl⟩ := hc
        exact ((admitted a ha).2.2 ‹_›).2
    · simp only [List.mem_append, List.mem_cons, List.mem_singleton] at hc
      rcases hc with (rfl | rfl | hc) | hc
      · exact retCancelled
      · exact retTimedOut
      · simp at hc
      · split at hc <;> simp at hc
        obtain ⟨a, ha, rfl⟩ := hc
        exact ((admitted a ha).2.1 ‹_›).2.2.2
  case dispatch => exact (admitted t hc).1
  case enableCORS =>
    simp only [histories] at hc
    split at hc <;> simp at hc
    obtain ⟨a, ha, rfl⟩ := hc
    exact ((admitted a ha).2.1 ‹_›).1
  case process =>
    simp only [histories] at hc
    split at hc <;> simp at hc
    obtain ⟨a, ha, rfl⟩ := hc
    exact ((admitted a ha).2.1 ‹_›).2.1
  all_goals
    simp only [histories] at hc
    try split at hc
    all_goals simp at hc
    all_goals subst_vars
    all_goals assumption

theorem queueDeadline_eq_min (cfg : Flags) (r : Request) :
    queueDeadline cfg r = min (getMaxQueryDuration cfg r) cfg.maxQueueDuration := by
  unfold queueDeadline
  simp only
  split <;> omega

/-! ## Duration arithmetic -/

/-- C6: for every number `n` of available compute units (any `n` from `-2^62` up, so
that doubling cannot wrap), `getDefaultMaxConcurrentRequests` returns `min 16 (2n)`
when `n ≤ 4` and `min 16 n` when `n > 4`; `n = 2` gives `4`, `n = 20` gives `16`, and
the result never exceeds `16`. -/
theorem getDefaultMaxConcurrentRequests_spec (n : Int) (hn : -(2 ^ 62) ≤ n) :
    getDefaultMaxConcurrentRequests n = (if n ≤ 4 then min 16 (2 * n) else min 16 n) ∧
    getDefaultMaxConcurrentRequests n ≤ 16 ∧
    getDefaultMaxConcurrentRequests 2 = 4 ∧
    getDefaultMaxConcurrentRequests 20 = 16 := by
  refine ⟨?_, ?_, by decide, by decide⟩
  · unfold getDefaultMaxConcurrentRequests
    by_cases h4 : n ≤ 4
    · have hw : wrapInt64 (n * 2) = n * 2 := by
        apply wrapInt64_of_isInt64
        unfold isInt64
        norm_num at hn ⊢
        omega
      simp only [h4, if_true, hw]
      split <;> omega
    · simp only [h4, if_false]
      split <;> omega
  · unfold getDefaultMaxConcurrentRequests
    simp only
    split <;> omega

theorem getDefaultMaxConcurrentRequests_spec_witness :
    getDefaultMaxConcurrentRequests 3 = (if (3 : Int) ≤ 4 then min 16 (2 * 3) else min 16 3) ∧
    getDefaultMaxConcurrentRequests 3 ≤ 16 ∧
    getDefaultMaxConcurrentRequests 2 = 4 ∧
    getDefaultMaxConcurrentRequests 20 = 16 :=
  getDefaultMaxConcurrentRequests_spec 3 (by decide)

/-- Every number of milliseconds that `httputils.GetDuration` returns, from `0` to 100
years, has a nanosecond count that is an `int64`. -/
theorem getDuration_range_isInt64 {dms : Int} (h0 : 0 ≤ dms) (h1 : dms ≤ maxDurationMsecs) :
    isInt64 (dms * Millisecond) := by
  unfold isInt64 maxDurationMsecs Millisecond at *
  constructor <;> omega

/-- C3: for every request and every configured `maxQueryDuration`,
`getMaxQueryDuration` returns exactly `maxQueryDuration` whenever the timeout is
absent (default 0), fails to parse (error, treated as 0), or is a number `dms` of
milliseconds that is `≤ 0` or whose duration exceeds `maxQueryDuration`; the duration
of `dms` milliseconds being a `time.Duration`, that is `dms * 10^6` being an `int64`,
as it is for every value the helper `httputils.GetDuration` returns. -/
theorem getMaxQueryDuration_fallback (cfg : Flags) (r : Request)
    (h : r.timeout = .absent ∨ r.timeout = .unparsable ∨
      ∃ dms, r.timeout = .parsed dms ∧ isInt64 (dms * Millisecond) ∧
        (dms ≤ 0 ∨ cfg.maxQueryDuration < dms * Millisecond)) :
    getMaxQueryDuration cfg r = cfg.maxQueryDuration := by
  unfold getMaxQueryDuration
  rcases h with h | h | ⟨dms, h, hi, hd⟩
  · simp [h, GetDuration, wrapInt64]
  · simp [h, GetDuration, wrapInt64]
  · simp only [h, GetDuration, Bool.false_eq_true, if_false, wrapInt64_of_isInt64 hi]
    have hw : dms * Millisecond ≤ 0 ∨ dms * Millisecond > cfg.maxQueryDuration := by
      unfold Millisecond at hd ⊢
      omega
    rw [if_pos hw]

theorem getMaxQueryDuration_fallback_witness :
    getMaxQueryDuration (defaultFlags 8) ⟨"/select/logsql/query".toList, .parsed 60000⟩
      = 30 * Second ∧
    isInt64 (60000 * Millisecond) ∧ 30 * Second < 60000 * Millisecond :=
  ⟨getMaxQueryDuration_fallback (defaultFlags 8) ⟨"/select/logsql/query".toList, .parsed 60000⟩
      (Or.inr (Or.inr ⟨60000, rfl,
        getDuration_range_isInt64 (by decide) (by decide), Or.inr (by decide)⟩)),
    by decide, by decide⟩

/-- C5: for every parsed timeout of `dms` milliseconds with
`0 < dms * 1ms ≤ maxQueryDuration` (the ceiling being an `int64`),
`getMaxQueryDuration` returns exactly `dms` milliseconds. -/
theorem getMaxQueryDuration_passthrough (cfg : Flags) (r : Request) (dms : Int)
    (hq : isInt64 cfg.maxQueryDuration) (ht : r.timeout = .parsed dms)
    (hpos : 0 < dms * Millisecond) (hle : dms * Millisecond ≤ cfg.maxQueryDuration) :
    getMaxQueryDuration cfg r = dms * Millisecond := by
  have hi : isInt64 (dms * Millisecond) := by
    unfold isInt64 at hq ⊢
    constructor <;> omega
  unfold getMaxQueryDuration
  simp only [ht, GetDuration, Bool.false_eq_true, if_false, wrapInt64_of_isInt64 hi]
  rw [if_neg]
  omega

theorem getMaxQueryDuration_passthrough_witness :
    getMaxQueryDuration (defaultFlags 8) ⟨"/select/logsql/query".toList, .parsed 5000⟩
      = 5000 * Millisecond :=
  getMaxQueryDuration_passthrough (defaultFlags 8) ⟨"/select/logsql/query".toList, .parsed 5000⟩
    5000 (by decide) rfl (by decide) (by decide)

/-! ## The gate -/

theorem step_slots {cfg : Flags} {sh sh1 : Shared} {h h1 : Handler} {arm : Arm}
    (hs : h.step cfg sh arm = some (sh1, h1)) :
    sh1.capacity = sh.capacity ∧
    sh1.slotsHeld + h.pc.held = sh.slotsHeld + h1.pc.held ∧
    (sh.slotsHeld ≤ sh.capacity → sh1.slotsHeld ≤ sh1.capacity) := by
  obtain ⟨es, pc1, hn, rfl, rfl⟩ := step_eq_some hs
  clear hs
  obtain ⟨r, pc, t⟩ := h
  simp only at hn ⊢
  cases pc <;> simp only [RequestHandler] at hn
  case wait d =>
    cases arm <;> simp only at hn <;> (try split at hn) <;> simp at hn <;>
      obtain ⟨rfl, rfl⟩ := hn <;> simp [applyEffect, PC.held, PC.holding] <;> omega
  case returned b => simp at hn
  all_goals
    (try split at hn) <;> (try split at hn) <;> simp at hn <;>
      obtain ⟨rfl, rfl⟩ := hn <;> simp [applyEffect, PC.held, PC.holding] <;> omega

theorem holders_append (hs : List Handler) (h : Handler) :
    holders (hs ++ [h]) = holders hs + h.pc.held := by
  induction hs with
  | nil => simp [holders]
  | cons a l ih => simp [holders, ih]; omega

theorem holders_set {hs : List Handler} {i : Nat} {h h1 : Handler} (hi : hs[i]? = some h) :
    holders (hs.set i h1) + h.pc.held = holders hs + h1.pc.held := by
  induction hs generalizing i with
  | nil => simp at hi
  | cons a l ih =>
    cases i with
    | zero =>
      simp at hi
      subst hi
      simp [holders]
      omega
    | succ j =>
      simp at hi
      have := ih hi
      simp [holders]
      omega

/-- The invariant of the gate along a schedule: the channel never holds more than its
capacity, it holds one element per handler between claim and release, and its
capacity does not change. -/
theorem run_invariant {cfg : Flags} (acts : List Action) :
    ∀ {s s1 : Sys}, Sys.run cfg s acts = some s1 →
      s.sh.slotsHeld ≤ s.sh.capacity → s.sh.slotsHeld = holders s.hs →
      s1.sh.slotsHeld ≤ s1.sh.capacity ∧ s1.sh.slotsHeld = holders s1.hs ∧
      s1.sh.capacity = s.sh.capacity := by
  induction acts with
  | nil =>
    intro s s1 hr hle hh
    simp only [Sys.run, Option.some.injEq] at hr
    subst hr
    exact ⟨hle, hh, rfl⟩
  | cons a rest ih =>
    intro s s1 hr hle hh
    simp only [Sys.run] at hr
    split at hr
    · simp at hr
    · rename_i s2 hs2
      have key : s2.sh.slotsHeld ≤ s2.sh.capacity ∧ s2.sh.slotsHeld = holders s2.hs ∧
          s2.sh.capacity = s.sh.capacity := by
        cases a with
        | arrive r =>
          simp only [Sys.step, Option.some.injEq] at hs2
          subst hs2
          refine ⟨hle, ?_, rfl⟩
          simp only [holders_append, Handler.fresh, PC.held, PC.holding]
          simpa using hh
        | step i arm =>
          simp only [Sys.step] at hs2
          split at hs2
          · simp at hs2
          · rename_i h hi
            split at hs2
            · simp at hs2
            · rename_i sh3 h3 hst
              simp only [Option.some.injEq] at hs2
              subst hs2
              obtain ⟨hcap, hbal, hle3⟩ := step_slots hst
              have hset := @holders_set s.hs i h h3 hi
              simp only
              refine ⟨hle3 hle, ?_, hcap⟩
              omega
      obtain ⟨h1, h2, h3⟩ := ih hr key.1 key.2.1
      exact ⟨h1, h2, h3.trans key.2.2⟩

/-- C1: in every state reachable from `Init` by any interleaving of handler steps,
`0 ≤ slotsHeld ≤ capacity`, where `capacity` is the value set by `Init`; moreover
`slotsHeld` is exactly the number of handlers between their claim and their release,
so a deferred receive never finds the channel empty. -/
theorem gate_capacity_invariant (cfg : Flags) (s : Sys) (hr : Reachable cfg s) :
    (0 : Int) ≤ s.sh.slotsHeld ∧ s.sh.slotsHeld ≤ s.sh.capacity ∧
    (s.sh.capacity : Int) = cfg.maxConcurrentRequests ∧
    s.sh.slotsHeld = holders s.hs := by
  obtain ⟨sh0, acts, hinit, hrun⟩ := hr
  unfold Init at hinit
  split at hinit
  · simp at hinit
  · rename_i hneg
    simp only [Option.some.injEq] at hinit
    subst hinit
    obtain ⟨h1, h2, h3⟩ := run_invariant acts hrun (by simp) (by simp [holders])
    refine ⟨by omega, h1, ?_, h2⟩
    rw [h3]
    simp only
    omega

theorem gate_capacity_invariant_witness :
    Reachable (flagsWith 2) scenarioAFinal ∧
    scenarioAFinal.sh.slotsHeld ≤ scenarioAFinal.sh.capacity ∧
    scenarioAFinal.sh.slotsHeld = holders scenarioAFinal.hs :=
  have hr : Reachable (flagsWith 2) scenarioAFinal :=
    ⟨gate 2 0 0 0 0 0 0, scenarioA, by decide, by decide⟩
  ⟨hr, (gate_capacity_invariant (flagsWith 2) scenarioAFinal hr).2.1,
    (gate_capacity_invariant (flagsWith 2) scenarioAFinal hr).2.2.2⟩

/-! ## Executions of one handler -/

theorem exec_trace_prefix {cfg : Flags} (steps : List (Shared × Arm)) :
    ∀ {h h1 : Handler}, h.exec cfg steps = some h1 → ∃ es, h1.trace = h.trace ++ es := by
  induction steps with
  | nil =>
    intro h h1 he
    simp only [Handler.exec, Option.some.injEq] at he
    subst he
    exact ⟨[], by simp⟩
  | cons p rest ih =>
    intro h h1 he
    obtain ⟨sh, arm⟩ := p
    simp only [Handler.exec] at he
    split at he
    · simp at he
    · rename_i sh2 h2 hs
      obtain ⟨es, pc, -, -, rfl⟩ := step_eq_some hs
      obtain ⟨es1, h1e⟩ := ih he
      exact ⟨es ++ es1, by simp [h1e]⟩

theorem exec_returned {cfg : Flags} {r : Request} {b : Bool} {t : List Effect}
    {steps : List (Shared × Arm)} {h : Handler}
    (he : Handler.exec cfg { req := r, pc := .returned b, trace := t } steps = some h) :
    h = { req := r, pc := .returned b, trace := t } := by
  cases steps with
  | nil => simpa [Handler.exec] using he.symm
  | cons p rest =>
    obtain ⟨sh, arm⟩ := p
    simp [Handler.exec, Handler.step, RequestHandler] at he

theorem exec_first {cfg : Flags} {r : Request} {sh0 : Shared} {arm0 : Arm}
    {rest : List (Shared × Arm)} {h : Handler}
    (he : (Handler.fresh r).exec cfg ((sh0, arm0) :: rest) = some h) :
    (hasPrefix r.path selectPrefix = false → h.pc = .returned false ∧ h.trace = []) ∧
    (hasPrefix r.path selectPrefix = true → sh0.slotsHeld < sh0.capacity →
      h.trace.head? = some .chanSend) ∧
    (hasPrefix r.path selectPrefix = true → ¬ sh0.slotsHeld < sh0.capacity →
      (h.pc = .limitReached ∧ h.trace = []) ∨ h.trace.head? = some .limitReachedInc) := by
  simp only [Handler.exec, Handler.step, Handler.fresh, RequestHandler] at he
  refine ⟨?_, ?_, ?_⟩
  · intro hp
    simp only [hp, Bool.not_false, if_true] at he
    have := exec_returned he
    subst this
    simp
  · intro hp hfree
    simp only [hp, Bool.not_true, Bool.false_eq_true, if_false, hfree, if_true] at he
    obtain ⟨es, hes⟩ := exec_trace_prefix rest he
    simp at hes
    simp [hes]
  · intro hp hfull
    simp only [hp, Bool.not_true, Bool.false_eq_true, if_false, hfull] at he
    cases rest with
    | nil =>
      simp [Handler.exec] at he
      subst he
      simp
    | cons p rest1 =>
      obtain ⟨sh, arm⟩ := p
      simp only [Handler.exec, Handler.step, RequestHandler] at he
      obtain ⟨es, hes⟩ := exec_trace_prefix rest1 he
      simp at hes
      simp [hes]

/-- C4: in every execution of a handler, under any interference, the duration `d`
with which the timer is armed on the slow path, and the one reported in the timeout
error, equals `min (getMaxQueryDuration r) maxQueueDuration`; with the timeout absent,
`maxQueryDuration = 30s` and `maxQueueDuration = 10s` it is `10s`, and with
`timeout = 5000` ms and `maxQueueDuration = 10s` it is `5s` (for the default ceiling
of `30s`, and for every ceiling of at least `5s`). -/
theorem queueDeadline_is_min (cfg : Flags) (r : Request) (steps : List (Shared × Arm)) (h : Handler)
    (he : (Handler.fresh r).exec cfg steps = some h) :
    (∀ d, Effect.timerGet d ∈ h.trace →
      d = min (getMaxQueryDuration cfg r) cfg.maxQueueDuration) ∧
    (∀ d, h.pc = .wait d →
      d = min (getMaxQueryDuration cfg r) cfg.maxQueueDuration ∧ Effect.timerGet d ∈ h.trace) ∧
    (∀ e, Effect.errorf e ∈ h.trace →
      e = timeoutError cfg (min (getMaxQueryDuration cfg r) cfg.maxQueueDuration)) ∧
    (∀ n p, queueDeadline ⟨n, 10 * Second, 30 * Second⟩ ⟨p, .absent⟩ = 10 * Second) ∧
    (∀ n p q, 5 * Second ≤ q →
      queueDeadline ⟨n, 10 * Second, q⟩ ⟨p, .parsed 5000⟩ = 5 * Second) := by
  rw [← queueDeadline_eq_min]
  refine ⟨?_, ?_, ?_, ?_, ?_⟩
  · apply histories_elim
      (P := fun _ t => ∀ d, Effect.timerGet d ∈ t → d = queueDeadline cfg r)
      (exec_fresh_consistent he) <;> simp [slowHead, admittedHistories]
  · apply histories_elim
      (P := fun pc t => ∀ d, pc = .wait d → d = queueDeadline cfg r ∧ Effect.timerGet d ∈ t)
      (exec_fresh_consistent he) <;> simp [slowHead, admittedHistories]
  · apply histories_elim
      (P := fun _ t => ∀ e, Effect.errorf e ∈ t → e = timeoutError cfg (queueDeadline cfg r))
      (exec_fresh_consistent he) <;> simp [slowHead, admittedHistories]
  · intro n p
    simp [queueDeadline, getMaxQueryDuration, GetDuration, wrapInt64, Second]
  · intro n p q hq
    have hw : wrapInt64 (5000 * Millisecond) = 5 * Second := by decide
    simp only [queueDeadline, getMaxQueryDuration, GetDuration, Bool.false_eq_true, if_false, hw]
    unfold Second at hq ⊢
    split <;> split <;> omega

theorem queueDeadline_is_min_witness :
    10 * Second =
      min (getMaxQueryDuration (flagsWith 1) (queryRequest .absent))
        (flagsWith 1).maxQueueDuration ∧
    Effect.timerGet (10 * Second) ∈ scenarioDHandler.trace :=
  (queueDeadline_is_min (flagsWith 1) (queryRequest .absent) (scenarioCSteps.take 3)
    scenarioDHandler (by decide)).2.1 (10 * Second) rfl

theorem foldl_counters (es : List Effect) :
    ∀ sh : Shared,
      (es.foldl applyEffect sh).concurrencyLimitReached
        = sh.concurrencyLimitReached + occurrences .limitReachedInc es ∧
      (es.foldl applyEffect sh).concurrencyLimitTimeout
        = sh.concurrencyLimitTimeout + occurrences .limitTimeoutInc es := by
  induction es with
  | nil => intro sh; simp [occurrences]
  | cons e rest ih =>
    intro sh
    obtain ⟨h1, h2⟩ := ih (applyEffect sh e)
    simp only [List.foldl_cons, h1, h2, occurrences]
    cases e <;> simp [applyEffect, List.count_cons] <;> omega

/-- C8: for every `/select/` request, in every execution under any interference: if
a slot is free at the first select, the request is admitted and the handler never
increments `limitReachedCount` or `limitTimeoutCount`; otherwise it increments
`limitReachedCount` exactly once (as soon as it has passed line 82), and it
increments `limitTimeoutCount` at most once, exactly once if and only if its wait
was resolved by the timer. Each increment effect adds one to its counter. -/
theorem counter_accounting (cfg : Flags) (r : Request) (sh0 : Shared) (arm0 : Arm)
    (rest : List (Shared × Arm)) (h : Handler)
    (hp : hasPrefix r.path selectPrefix = true)
    (he : (Handler.fresh r).exec cfg ((sh0, arm0) :: rest) = some h) :
    (sh0.slotsHeld < sh0.capacity →
      h.trace.head? = some .chanSend ∧
      occurrences .limitReachedInc h.trace = 0 ∧
      occurrences .limitTimeoutInc h.trace = 0) ∧
    (¬ sh0.slotsHeld < sh0.capacity →
      (h.pc = .limitReached ∨ occurrences .limitReachedInc h.trace = 1) ∧
      occurrences .limitReachedInc h.trace ≤ 1 ∧
      occurrences .limitTimeoutInc h.trace ≤ 1 ∧
      (occurrences .limitTimeoutInc h.trace = 1 → Effect.timerRecv ∈ h.trace) ∧
      (∀ b, h.pc = .returned b →
        occurrences .limitReachedInc h.trace = 1 ∧
        (occurrences .limitTimeoutInc h.trace = 1 ↔ Effect.timerRecv ∈ h.trace))) ∧
    (∀ (sh : Shared) (es : List Effect),
      (es.foldl applyEffect sh).concurrencyLimitReached
        = sh.concurrencyLimitReached + occurrences .limitReachedInc es ∧
      (es.foldl applyEffect sh).concurrencyLimitTimeout
        = sh.concurrencyLimitTimeout + occurrences .limitTimeoutInc es) := by
  obtain ⟨-, hfast, hslow⟩ := exec_first he
  have key := histories_elim
    (P := fun pc t =>
      (t.head? = some .chanSend →
        occurrences .limitReachedInc t = 0 ∧ occurrences .limitTimeoutInc t = 0) ∧
      ((pc = .limitReached ∧ t = []) ∨ t.head? = some .limitReachedInc →
        (pc = .limitReached ∨ occurrences .limitReachedInc t = 1) ∧
        occurrences .limitReachedInc t ≤ 1 ∧
        occurrences .limitTimeoutInc t ≤ 1 ∧
        (occurrences .limitTimeoutInc t = 1 → Effect.timerRecv ∈ t) ∧
        (∀ b, pc = .returned b →
          occurrences .limitReachedInc t = 1 ∧
          (occurrences .limitTimeoutInc t = 1 ↔ Effect.timerRecv ∈ t))))
    (exec_fresh_consistent he)
    (by simp [occurrences]) (by simp [occurrences]) (by simp [occurrences])
    (by simp [occurrences, slowHead]) (by simp [occurrences, slowHead])
    (by simp [occurrences, slowHead]) (by simp [occurrences, slowHead])
    (by simp [occurrences, slowHead]) (by simp [occurrences, slowHead])
    (by simp [occurrences, slowHead]) (by simp [occurrences, slowHead])
    (by simp [occurrences, slowHead]) (by simp [occurrences])
    (by
      intro a ha
      simp only [admittedHistories, slowHead, List.mem_cons, List.mem_singleton,
        List.not_mem_nil, or_false] at ha
      rcases ha with rfl | rfl <;> simp [occurrences])
  exact ⟨fun hf => ⟨hfast hp hf, key.1 (hfast hp hf)⟩, fun hf => key.2 (hslow hp hf),
    fun sh es => foldl_counters es sh⟩

set_option maxRecDepth 100000 in
theorem counter_accounting_witness :
    occurrences .limitReachedInc scenarioBHandler.trace = 1 ∧
    (occurrences .limitTimeoutInc scenarioBHandler.trace = 1 ↔
      Effect.timerRecv ∈ scenarioBHandler.trace) :=
  ((counter_accounting (flagsWith 1) (queryRequest (.parsed 5000)) (gate 1 1 0 0 0 0 0) .timer
    scenarioBSteps.tail scenarioBHandler (by decide) (by decide)).2.1
      (by decide)).2.2.2.2 true rfl

/-- C9: a handler leases at most one timer, and it leases one if and only if the
fast-path claim fails (a `/select/` request that finds no free slot, once it is past
line 87); it never returns more timers than it leased; whichever case of the select
of line 88 wins (slot, cancellation or timer), the very next step of the handler is
`timerpool.Put`, enabled in every shared state; and on every exit the number of
returned timers equals the number of leased ones (both zero on the fast path). -/
theorem timer_discipline (cfg : Flags) (r : Request) (sh0 : Shared) (arm0 : Arm)
    (rest : List (Shared × Arm)) (h : Handler)
    (he : (Handler.fresh r).exec cfg ((sh0, arm0) :: rest) = some h) :
    leases h.trace ≤ 1 ∧
    occurrences .timerPut h.trace ≤ leases h.trace ∧
    (leases h.trace = 1 →
      hasPrefix r.path selectPrefix = true ∧ ¬ sh0.slotsHeld < sh0.capacity) ∧
    (hasPrefix r.path selectPrefix = true → ¬ sh0.slotsHeld < sh0.capacity →
      h.pc = .limitReached ∨ h.pc = .timerGet ∨ leases h.trace = 1) ∧
    (∀ b, h.pc = .returned b → occurrences .timerPut h.trace = leases h.trace) ∧
    (∀ d, h.pc = .wait d → ∀ sh arm sh1 h1, h.step cfg sh arm = some (sh1, h1) →
      (∃ e, (e = .chanSend ∨ e = .stopRecv ∨ e = .timerRecv) ∧ h1.trace = h.trace ++ [e]) ∧
      ∀ sh2 arm2, ∃ sh3 h3, h1.step cfg sh2 arm2 = some (sh3, h3) ∧
        h3.trace = h1.trace ++ [.timerPut]) := by
  obtain ⟨hnone, hfast, hslow⟩ := exec_first he
  obtain ⟨hcons, hreq⟩ := exec_consistent _ (fresh_consistent cfg r) he
  have hreq : h.req = r := hreq
  have key := histories_elim
    (P := fun pc t =>
      leases t ≤ 1 ∧ occurrences .timerPut t ≤ leases t ∧
      (t = [] ∨ t.head? = some .chanSend → leases t = 0) ∧
      ((pc = .limitReached ∧ t = []) ∨ t.head? = some .limitReachedInc →
        pc = .limitReached ∨ pc = .timerGet ∨ leases t = 1) ∧
      (∀ b, pc = .returned b → occurrences .timerPut t = leases t) ∧
      (∀ d, pc = .wait d → ∀ sh arm sh1 h1,
        Handler.step cfg sh { req := r, pc := pc, trace := t } arm = some (sh1, h1) →
        (∃ e, (e = .chanSend ∨ e = .stopRecv ∨ e = .timerRecv) ∧ h1.trace = t ++ [e]) ∧
        ∀ sh2 arm2, ∃ sh3 h3, h1.step cfg sh2 arm2 = some (sh3, h3) ∧
          h3.trace = h1.trace ++ [.timerPut]))
    (exec_fresh_consistent he)
    (by simp [occurrences, leases]) (by simp [occurrences, leases])
    (by simp [occurrences, leases, Effect.isTimerGet])
    (by
      simp only [occurrences, leases, slowHead]
      refine ⟨by simp [Effect.isTimerGet], by simp [Effect.isTimerGet], by simp,
        by simp [Effect.isTimerGet], by simp, ?_⟩
      intro d hd sh arm sh1 h1 hs
      obtain ⟨es, pc1, hn, -, rfl⟩ := step_eq_some hs
      simp only [RequestHandler] at hn
      cases arm <;> simp only at hn <;> (try split at hn) <;> simp at hn <;>
        obtain ⟨rfl, rfl⟩ := hn <;> simp [Handler.step, RequestHandler] <;>
        exact fun sh2 _ => ⟨_, _, ⟨rfl, rfl⟩, rfl⟩)
    (by simp [occurrences, leases, slowHead, Effect.isTimerGet])
    (by simp [occurrences, leases, slowHead, Effect.isTimerGet])
    (by simp [occurrences, leases, slowHead, Effect.isTimerGet])
    (by simp [occurrences, leases, slowHead, Effect.isTimerGet])
    (by simp [occurrences, leases, slowHead, Effect.isTimerGet])
    (by simp [occurrences, leases, slowHead, Effect.isTimerGet])
    (by simp [occurrences, leases, slowHead, Effect.isTimerGet])
    (by simp [occurrences, leases, slowHead, Effect.isTimerGet])
    (by simp [occurrences, leases])
    (by
      intro a ha
      simp only [admittedHistories, slowHead, List.mem_cons, List.mem_singleton,
        List.not_mem_nil, or_false] at ha
      rcases ha with rfl | rfl <;> simp [occurrences, leases, Effect.isTimerGet])
  obtain ⟨k1, k2, k3, k4, k5, k6⟩ := key
  refine ⟨k1, k2, ?_, fun hp hf => k4 (hslow hp hf), k5, ?_⟩
  · intro hl
    by_cases hp : hasPrefix r.path selectPrefix = true
    · refine ⟨hp, fun hf => ?_⟩
      have := k3 (Or.inr (hfast hp hf))
      omega
    · have := k3 (Or.inl (hnone (by simpa using hp)).2)
      omega
  · intro d hd sh arm sh1 h1 hs
    have hh : h = { req := r, pc := h.pc, trace := h.trace } := by
      cases h
      simp_all
    rw [hh] at hs
    exact k6 d hd sh arm sh1 h1 hs

set_option maxRecDepth 100000 in
theorem timer_discipline_witness :
    leases scenarioBHandler.trace ≤ 1 ∧
    occurrences .timerPut scenarioBHandler.trace = leases scenarioBHandler.trace :=
  have h := timer_discipline (flagsWith 1) (queryRequest (.parsed 5000)) (gate 1 1 0 0 0 0 0)
    .timer scenarioBSteps.tail scenarioBHandler (by decide)
  ⟨h.1, h.2.2.2.2.1 true rfl⟩

theorem runAlone_balance {cfg : Flags} (arms : List Arm) :
    ∀ {sh sh1 : Shared} {h h1 : Handler}, h.runAlone cfg sh arms = some (sh1, h1) →
      sh1.slotsHeld + h.pc.held = sh.slotsHeld + h1.pc.held := by
  induction arms with
  | nil =>
    intro sh sh1 h h1 hr
    simp only [Handler.runAlone, Option.some.injEq, Prod.mk.injEq] at hr
    obtain ⟨rfl, rfl⟩ := hr
    rfl
  | cons arm rest ih =>
    intro sh sh1 h h1 hr
    simp only [Handler.runAlone] at hr
    split at hr
    · simp at hr
    · rename_i sh2 h2 hs
      have h1' := (step_slots hs).2.1
      have h2' := ih hr
      omega

theorem runAlone_returns (cfg : Flags) (r : Request) (sh : Shared) :
    ∃ n, n ≤ 7 ∧ ∃ sh1 h1 b,
      (Handler.fresh r).runAlone cfg sh (List.replicate n .timer) = some (sh1, h1) ∧
      h1.pc = .returned b := by
  by_cases hp : hasPrefix r.path selectPrefix = true
  · by_cases hf : sh.slotsHeld < sh.capacity
    · by_cases hq : routePath r = logsqlQueryPath
      · refine ⟨5, by omega, ?_⟩
        simp [List.replicate, Handler.runAlone, Handler.step, Handler.fresh, RequestHandler, hp, hf, hq,
          applyEffect]
        exact ⟨_, _, ⟨rfl, rfl⟩, by simp⟩
      · refine ⟨3, by omega, ?_⟩
        simp [List.replicate, Handler.runAlone, Handler.step, Handler.fresh, RequestHandler, hp, hf, hq,
          applyEffect]
        exact ⟨_, _, ⟨rfl, rfl⟩, by simp⟩
    · refine ⟨7, by omega, ?_⟩
      simp [List.replicate, Handler.runAlone, Handler.step, Handler.fresh, RequestHandler, hp, hf,
        applyEffect]
      exact ⟨_, _, ⟨rfl, rfl⟩, by simp⟩
  · refine ⟨1, by omega, ?_⟩
    simp [List.replicate, Handler.runAlone, Handler.step, Handler.fresh, RequestHandler, hp]
    exact ⟨_, _, ⟨rfl, rfl⟩, by simp⟩

/-- C2: a handler that has claimed a slot has claimed exactly one; until it returns it
holds the slot and has released nothing; when it returns, on both exit paths after
admission (`/logsql/query` returning `true`, any other path returning `false`), it
has released exactly once, as its last action. A handler run in isolation that
returns leaves `slotsHeld` as it found it, and run in isolation it does return. -/
theorem acquire_release_balance (cfg : Flags) (r : Request) :
    (∀ steps h, (Handler.fresh r).exec cfg steps = some h → Effect.chanSend ∈ h.trace →
      occurrences .chanSend h.trace = 1 ∧
      occurrences .chanRecv h.trace ≤ 1 ∧
      (∀ b, h.pc = .returned b →
        occurrences .chanRecv h.trace = 1 ∧ h.trace.getLast? = some .chanRecv ∧
        (b = true ↔ routePath r = logsqlQueryPath)) ∧
      ((∀ b, h.pc ≠ .returned b) →
        occurrences .chanRecv h.trace = 0 ∧ h.pc.holding = true)) ∧
    (∀ sh arms sh1 h1 b, (Handler.fresh r).runAlone cfg sh arms = some (sh1, h1) →
      h1.pc = .returned b → sh1.slotsHeld = sh.slotsHeld) ∧
    (∀ sh, ∃ n, n ≤ 7 ∧ ∃ sh1 h1 b,
      (Handler.fresh r).runAlone cfg sh (List.replicate n .timer) = some (sh1, h1) ∧
      h1.pc = .returned b) := by
  refine ⟨?_, ?_, runAlone_returns cfg r⟩
  · intro steps h he
    apply histories_elim
      (P := fun pc t => Effect.chanSend ∈ t →
        occurrences .chanSend t = 1 ∧
        occurrences .chanRecv t ≤ 1 ∧
        (∀ b, pc = .returned b →
          occurrences .chanRecv t = 1 ∧ t.getLast? = some .chanRecv ∧
          (b = true ↔ routePath r = logsqlQueryPath)) ∧
        ((∀ b, pc ≠ .returned b) → occurrences .chanRecv t = 0 ∧ pc.holding = true))
      (exec_fresh_consistent he)
    case admitted =>
      intro a ha
      simp only [admittedHistories, slowHead, List.mem_cons, List.mem_singleton,
        List.not_mem_nil, or_false] at ha
      rcases ha with rfl | rfl <;> simp [occurrences, PC.holding]
    all_goals simp [occurrences, slowHead, PC.holding]
  · intro sh arms sh1 h1 b hr hb
    have := runAlone_balance arms hr
    simp [Handler.fresh, hb, PC.held, PC.holding] at this
    exact this

theorem acquire_release_balance_witness :
    occurrences .chanSend fastHandler.trace = 1 ∧
    occurrences .chanRecv fastHandler.trace = 1 ∧
    fastHandler.trace.getLast? = some .chanRecv :=
  have h := (acquire_release_balance (flagsWith 1) (queryRequest .absent)).1 fastSteps
    fastHandler (by decide) (by decide)
  ⟨h.1, (h.2.2.1 true rfl).1, (h.2.2.1 true rfl).2.1⟩

/-- Once the select of line 88 is resolved by cancellation or by the timer, the
handler returns `true` within three steps, whatever the shared state is. -/
theorem resolved_returns {cfg : Flags} {r : Request} {pc : PC} {t : List Effect}
    (hc : t ∈ histories cfg r pc) (hres : Effect.stopRecv ∈ t ∨ Effect.timerRecv ∈ t) :
    ∃ n, n ≤ 3 ∧ ∀ steps : List (Shared × Arm), steps.length = n →
      ∃ h1, Handler.exec cfg { req := r, pc := pc, trace := t } steps = some h1 ∧
        h1.pc = .returned true ∧
        (Effect.stopRecv ∈ t → h1.trace = slowHead cfg r ++ [Effect.stopRecv, Effect.timerPut, Effect.infof]) ∧
        (Effect.timerRecv ∈ t →
          h1.trace = slowHead cfg r ++ [Effect.timerRecv, Effect.timerPut, Effect.limitTimeoutInc,
            Effect.errorf (timeoutError cfg (queueDeadline cfg r))]) := by
  revert hres
  apply histories_elim
    (P := fun pc t => Effect.stopRecv ∈ t ∨ Effect.timerRecv ∈ t →
      ∃ n, n ≤ 3 ∧ ∀ steps : List (Shared × Arm), steps.length = n →
        ∃ h1, Handler.exec cfg { req := r, pc := pc, trace := t } steps = some h1 ∧
          h1.pc = .returned true ∧
          (Effect.stopRecv ∈ t → h1.trace = slowHead cfg r ++ [Effect.stopRecv, Effect.timerPut, Effect.infof]) ∧
          (Effect.timerRecv ∈ t →
            h1.trace = slowHead cfg r ++ [Effect.timerRecv, Effect.timerPut, Effect.limitTimeoutInc,
              Effect.errorf (timeoutError cfg (queueDeadline cfg r))])) hc
  case cancelled =>
    intro _
    refine ⟨2, by omega, fun steps hl => ?_⟩
    obtain ⟨a, b, rfl⟩ := List.length_eq_two.mp hl
    simp [Handler.exec, Handler.step, RequestHandler, slowHead]
  case cancelledLog =>
    intro _
    refine ⟨1, by omega, fun steps hl => ?_⟩
    obtain ⟨a, rfl⟩ := List.length_eq_one.mp hl
    simp [Handler.exec, Handler.step, RequestHandler, slowHead]
  case timedOut =>
    intro _
    refine ⟨3, by omega, fun steps hl => ?_⟩
    obtain ⟨a, b, c, rfl⟩ := List.length_eq_three.mp hl
    simp [Handler.exec, Handler.step, RequestHandler, slowHead]
  case timedOutInc =>
    intro _
    refine ⟨2, by omega, fun steps hl => ?_⟩
    obtain ⟨a, b, rfl⟩ := List.length_eq_two.mp hl
    simp [Handler.exec, Handler.step, RequestHandler, slowHead]
  case timedOutErr =>
    intro _
    refine ⟨1, by omega, fun steps hl => ?_⟩
    obtain ⟨a, rfl⟩ := List.length_eq_one.mp hl
    simp [Handler.exec, Handler.step, RequestHandler, slowHead]
  case retCancelled =>
    intro _
    refine ⟨0, by omega, fun steps hl => ?_⟩
    obtain rfl := List.length_eq_zero.mp hl
    simp [Handler.exec, slowHead]
  case retTimedOut =>
    intro _
    refine ⟨0, by omega, fun steps hl => ?_⟩
    obtain rfl := List.length_eq_zero.mp hl
    simp [Handler.exec, slowHead]
  case admitted =>
    intro a ha
    simp only [admittedHistories, slowHead, List.mem_cons, List.mem_singleton,
      List.not_mem_nil, or_false] at ha
    rcases ha with rfl | rfl <;> simp
  all_goals simp [slowHead]

/-- C7: once the wait of a handler is resolved by timer expiry or by cancellation,
the handler has performed and performs no claim and no release, never calls the query
executor, changes `slotsHeld` by none of its effects and by none of its further
steps (whatever the shared state is, so also when a slot has just become free), and
returns `true` within three steps. -/
theorem no_slot_on_rejection (cfg : Flags) (r : Request) (steps : List (Shared × Arm)) (h : Handler)
    (he : (Handler.fresh r).exec cfg steps = some h)
    (hres : Effect.stopRecv ∈ h.trace ∨ Effect.timerRecv ∈ h.trace) :
    Effect.chanSend ∉ h.trace ∧ Effect.chanRecv ∉ h.trace ∧
    Effect.processQueryRequest ∉ h.trace ∧
    (∀ e ∈ h.trace, ∀ sh, (applyEffect sh e).slotsHeld = sh.slotsHeld) ∧
    (∀ sh arm sh1 h1, h.step cfg sh arm = some (sh1, h1) →
      sh1.slotsHeld = sh.slotsHeld ∧
      (Effect.stopRecv ∈ h1.trace ∨ Effect.timerRecv ∈ h1.trace)) ∧
    (∀ b, h.pc = .returned b → b = true) ∧
    (∃ n, n ≤ 3 ∧ ∀ more : List (Shared × Arm), more.length = n →
      ∃ h1, h.exec cfg more = some h1 ∧ h1.pc = .returned true ∧
        Effect.chanSend ∉ h1.trace ∧ Effect.chanRecv ∉ h1.trace ∧
        Effect.processQueryRequest ∉ h1.trace) := by
  obtain ⟨hcons, hreq⟩ := exec_consistent _ (fresh_consistent cfg r) he
  have hreq : h.req = r := hreq
  have hh : h = { req := r, pc := h.pc, trace := h.trace } := by
    cases h
    simp_all
  have hc := exec_fresh_consistent he
  have key := histories_elim
    (P := fun pc t => Effect.stopRecv ∈ t ∨ Effect.timerRecv ∈ t →
      Effect.chanSend ∉ t ∧ Effect.chanRecv ∉ t ∧ Effect.processQueryRequest ∉ t ∧
      (∀ e ∈ t, ∀ sh, (applyEffect sh e).slotsHeld = sh.slotsHeld) ∧
      (∀ sh arm sh1 h1,
        Handler.step cfg sh { req := r, pc := pc, trace := t } arm = some (sh1, h1) →
        sh1.slotsHeld = sh.slotsHeld ∧
        (Effect.stopRecv ∈ h1.trace ∨ Effect.timerRecv ∈ h1.trace)) ∧
      (∀ b, pc = .returned b → b = true))
    hc
    (by simp) (by simp) (by simp) (by simp [slowHead]) (by simp [slowHead])
    (by
      intro _
      simp only [slowHead]
      refine ⟨by simp, by simp, by simp, by simp [applyEffect], ?_, by simp⟩
      intro sh arm sh1 h1 hs
      simp [Handler.step, RequestHandler] at hs
      obtain ⟨rfl, rfl⟩ := hs
      simp [applyEffect])
    (by
      intro _
      simp only [slowHead]
      refine ⟨by simp, by simp, by simp, by simp [applyEffect], ?_, by simp⟩
      intro sh arm sh1 h1 hs
      simp [Handler.step, RequestHandler] at hs
      obtain ⟨rfl, rfl⟩ := hs
      simp [applyEffect])
    (by
      intro _
      simp only [slowHead]
      refine ⟨by simp, by simp, by simp, by simp [applyEffect], ?_, by simp⟩
      intro sh arm sh1 h1 hs
      simp [Handler.step, RequestHandler] at hs
      obtain ⟨rfl, rfl⟩ := hs
      simp [applyEffect])
    (by
      intro _
      simp only [slowHead]
      refine ⟨by simp, by simp, by simp, by simp [applyEffect], ?_, by simp⟩
      intro sh arm sh1 h1 hs
      simp [Handler.step, RequestHandler] at hs
      obtain ⟨rfl, rfl⟩ := hs
      simp [applyEffect])
    (by
      intro _
      simp only [slowHead]
      refine ⟨by simp, by simp, by simp, by simp [applyEffect], ?_, by simp⟩
      intro sh arm sh1 h1 hs
      simp [Handler.step, RequestHandler] at hs
      obtain ⟨rfl, rfl⟩ := hs
      simp [applyEffect])
    (by
      intro _
      simp only [slowHead]
      refine ⟨by simp, by simp, by simp, by simp [applyEffect], ?_, by simp⟩
      intro sh arm sh1 h1 hs
      simp [Handler.step, RequestHandler] at hs)
    (by
      intro _
      simp only [slowHead]
      refine ⟨by simp, by simp, by simp, by simp [applyEffect], ?_, by simp⟩
      intro sh arm sh1 h1 hs
      simp [Handler.step, RequestHandler] at hs)
    (by simp)
    (by
      intro a ha
      simp only [admittedHistories, slowHead, List.mem_cons, List.mem_singleton,
        List.not_mem_nil, or_false] at ha
      rcases ha with rfl | rfl <;> simp)
  obtain ⟨k1, k2, k3, k4, k5, k6⟩ := key hres
  refine ⟨k1, k2, k3, k4, ?_, k6, ?_⟩
  · intro sh arm sh1 h1 hs
    rw [hh] at hs
    exact k5 sh arm sh1 h1 hs
  · obtain ⟨n, hn, hex⟩ := resolved_returns hc hres
    refine ⟨n, hn, fun more hl => ?_⟩
    obtain ⟨h1, h1e, h1pc, h1s, h1t⟩ := hex more hl
    rw [← hh] at h1e
    refine ⟨h1, h1e, h1pc, ?_⟩
    rcases hres with hs | ht
    · rw [h1s hs]
      simp [slowHead]
    · rw [h1t ht]
      simp [slowHead]

theorem no_slot_on_rejection_witness :
    Effect.stopRecv ∈ scenarioCHandler.trace ∧
    Effect.chanSend ∉ scenarioCHandler.trace ∧ Effect.chanRecv ∉ scenarioCHandler.trace ∧
    Effect.processQueryRequest ∉ scenarioCHandler.trace :=
  have hs : Effect.stopRecv ∈ scenarioCHandler.trace := by decide
  have h := no_slot_on_rejection (flagsWith 1) (queryRequest .absent) scenarioCSteps
    scenarioCHandler (by decide) (Or.inl hs)
  ⟨hs, h.1, h.2.1, h.2.2.1⟩

theorem digitChar_isDigit : ∀ k, k < 10 → (Nat.digitChar k).isDigit = true := by
  decide

/-- C10: an error response is emitted only after the wait was resolved by timer
expiry, and then exactly once before the handler returns; it has status code 503 and
the message `couldn't start executing the request in <D.DDD> seconds, since
-search.maxConcurrentRequests=<N> concurrent requests are executed. Possible
solutions: ...`, where `<D.DDD>` is `%.3f` of the seconds of the queue deadline
`min (getMaxQueryDuration r) maxQueueDuration` (three decimals; `5.000` for 5 s) and
`<N>` is the flag that `Init` made the capacity. -/
theorem timeout_response (cfg : Flags) (r : Request) (steps : List (Shared × Arm)) (h : Handler)
    (he : (Handler.fresh r).exec cfg steps = some h) :
    (∀ e, Effect.errorf e ∈ h.trace →
      Effect.timerRecv ∈ h.trace ∧ e = timeoutError cfg (queueDeadline cfg r)) ∧
    (Effect.timerRecv ∈ h.trace →
      (∀ b, h.pc = .returned b →
        occurrences (.errorf (timeoutError cfg (queueDeadline cfg r))) h.trace = 1) ∧
      ∃ n, n ≤ 3 ∧ ∀ more : List (Shared × Arm), more.length = n →
        ∃ h1, h.exec cfg more = some h1 ∧ h1.pc = .returned true ∧
          occurrences (.errorf (timeoutError cfg (queueDeadline cfg r))) h1.trace = 1) ∧
    queueDeadline cfg r = min (getMaxQueryDuration cfg r) cfg.maxQueueDuration ∧
    (∀ d, (timeoutError cfg d).statusCode = 503 ∧
      (timeoutError cfg d).err =
        "couldn't start executing the request in ".toList ++ fmtFixed3 (Seconds d) ++
        " seconds, since -search.maxConcurrentRequests=".toList ++
        fmtInt cfg.maxConcurrentRequests ++
        " concurrent requests are executed. Possible solutions: ".toList ++
        possibleSolutions cfg) ∧
    (∀ x : F64, ∃ whole frac, fmtFixed3 x = whole ++ '.' :: frac ∧ frac.length = 3 ∧
      ∀ c ∈ frac, c.isDigit = true) ∧
    fmtFixed3 (Seconds (5 * Second)) = "5.000".toList ∧
    (∀ sh, Init cfg = some sh → (sh.capacity : Int) = cfg.maxConcurrentRequests) := by
  obtain ⟨hcons, hreq⟩ := exec_consistent _ (fresh_consistent cfg r) he
  have hreq : h.req = r := hreq
  have hh : h = { req := r, pc := h.pc, trace := h.trace } := by
    cases h
    simp_all
  have hc := exec_fresh_consistent he
  refine ⟨?_, ?_, queueDeadline_eq_min cfg r, fun d => ⟨rfl, rfl⟩, ?_, by decide, ?_⟩
  · apply histories_elim
      (P := fun _ t => ∀ e, Effect.errorf e ∈ t →
        Effect.timerRecv ∈ t ∧ e = timeoutError cfg (queueDeadline cfg r)) hc
    case admitted =>
      intro a ha
      simp only [admittedHistories, slowHead, List.mem_cons, List.mem_singleton,
        List.not_mem_nil, or_false] at ha
      rcases ha with rfl | rfl <;> simp
    all_goals simp [slowHead]
  · intro ht
    constructor
    · revert ht
      apply histories_elim
        (P := fun pc t => Effect.timerRecv ∈ t → ∀ b, pc = PC.returned b →
          occurrences (Effect.errorf (timeoutError cfg (queueDeadline cfg r))) t = 1) hc
      case admitted =>
        intro a ha
        simp only [admittedHistories, slowHead, List.mem_cons, List.mem_singleton,
          List.not_mem_nil, or_false] at ha
        rcases ha with rfl | rfl <;> simp
      all_goals simp [slowHead, occurrences]
    · obtain ⟨n, hn, hex⟩ := resolved_returns hc (Or.inr ht)
      refine ⟨n, hn, fun more hl => ?_⟩
      obtain ⟨h1, h1e, h1pc, -, h1t⟩ := hex more hl
      rw [← hh] at h1e
      refine ⟨h1, h1e, h1pc, ?_⟩
      rw [h1t ht]
      simp [slowHead, occurrences]
  · intro x
    unfold fmtFixed3
    simp only
    have hd : ∀ c ∈ pad3 (roundScaled (x.mant * 1000) 1 (-x.exp) % 1000), c.isDigit = true := by
      intro c hc
      simp only [pad3, List.mem_cons, List.mem_singleton, List.not_mem_nil, or_false] at hc
      have hlt : roundScaled (x.mant * 1000) 1 (-x.exp) % 1000 < 1000 := Nat.mod_lt _ (by omega)
      rcases hc with rfl | rfl | rfl <;> apply digitChar_isDigit <;> omega
    split
    · exact ⟨_, _, by rw [← List.cons_append], by simp [pad3], hd⟩
    · exact ⟨_, _, rfl, by simp [pad3], hd⟩
  · intro sh hi
    unfold Init at hi
    split at hi
    · simp at hi
    · simp only [Option.some.injEq] at hi
      subst hi
      simp only
      omega


set_option maxRecDepth 100000 in
theorem timeout_response_witness :
    (Effect.timerRecv ∈ scenarioBHandler.trace ∧
      timeoutError (flagsWith 1) (5 * Second) =
        timeoutError (flagsWith 1)
          (queueDeadline (flagsWith 1) (queryRequest (.parsed 5000)))) ∧
    (timeoutError (flagsWith 1) (5 * Second)).err =
      ("couldn't start executing the request in 5.000 seconds, since " ++
       "-search.maxConcurrentRequests=1 concurrent requests are executed. " ++
       "Possible solutions: to reduce query load; to add more compute resources to " ++
       "the server; to increase -search.maxQueueDuration=10s; to increase " ++
       "-search.maxQueryDuration; to increase -search.maxConcurrentRequests").toList :=
  ⟨(timeout_response (flagsWith 1) (queryRequest (.parsed 5000)) scenarioBSteps
      scenarioBHandler (by decide)).1 _ (by decide),
    by decide⟩
end Vlselect
